import Mathlib

/-!
Verification development for `src/cmd/mtlognorm.cpp` (multi-tissue informed
log-domain intensity normalisation).

The voxel grid is flattened: 3D scalar volumes become `List` values (one entry
per voxel, in image iteration order) or functions `Fin nv → ℝ`, and masks
become `List Bool`.  Floating-point arithmetic is idealised as exact arithmetic
in a linear ordered field (`ℚ` for concrete evaluation, `ℝ` where the code
takes logarithms and exponentials).  Since exact fields have no infinities or
NaNs, the `std::isfinite` test of `refine_mask` is identically true and is
dropped from the translation.
-/

namespace Mtlognorm

variable {α : Type} [LinearOrderedField α]

/-- Translation of `refine_mask` (mtlognorm.cpp:103-113): the refined mask is
true exactly where the summed image is (finite and) strictly positive and the
initial mask is true.  First argument is the summed image, second the initial
mask. -/
def refineMask : List α → List Bool → List Bool
  | [], _ => []
  | _, [] => []
  | s :: ss, m :: ms => (decide (0 < s) && m) :: refineMask ss ms

/-- Translation of the value-collection loop (mtlognorm.cpp:286-290): the
summed-log values at voxels where the mask is true, in image order. -/
def collectMaskedValues : List Bool → List α → List α
  | [], _ => []
  | _, [] => []
  | m :: ms, x :: xs =>
    if m then x :: collectMaskedValues ms xs else collectMaskedValues ms xs

/-- Insertion of an element into a sorted list, ascending. -/
def insertSorted (x : α) : List α → List α
  | [] => [x]
  | y :: ys => if x ≤ y then x :: y :: ys else y :: insertSorted x ys

/-- Translation of `std::sort` (mtlognorm.cpp:294): sort ascending.  (Any
comparison sort produces the same value list for a total order, so insertion
sort is used for its structural recursion.) -/
def sortValues : List α → List α
  | [] => []
  | x :: xs => insertSorted x (sortValues xs)

/-- Translation of `std::round ((float)num_voxels * 0.25)` (mtlognorm.cpp:295),
the index of the lower quartile.  `round` on `ℚ` rounds half up, which agrees
with C's round-half-away-from-zero on the nonnegative arguments occurring
here. -/
def lower_quartile_index (n : ℕ) : ℕ := (round ((n : ℚ) * 0.25)).toNat

/-- Translation of `std::round ((float)num_voxels * 0.75)` (mtlognorm.cpp:296),
the index of the upper quartile. -/
def upper_quartile_index (n : ℕ) : ℕ := (round ((n : ℚ) * 0.75)).toNat

/-- The two quartiles read off the sorted masked-value list
(mtlognorm.cpp:294-296).  The `getD` default is never reached when the indices
are in bounds. -/
def quartilesOf (vals : List α) : α × α :=
  ((sortValues vals).getD (lower_quartile_index vals.length) 0,
   (sortValues vals).getD (upper_quartile_index vals.length) 0)

/-- The Tukey-style outlier fences with multiplier 1.6 (mtlognorm.cpp:297-298):
first component the lower threshold, second the upper. -/
def outlierThresholds (vals : List α) : α × α :=
  ((quartilesOf vals).1 - 1.6 * ((quartilesOf vals).2 - (quartilesOf vals).1),
   (quartilesOf vals).2 + 1.6 * ((quartilesOf vals).2 - (quartilesOf vals).1))

/-- Translation of the rejection loop (mtlognorm.cpp:301-308): walk the mask
and the summed-log image together; at a masked voxel whose value lies strictly
outside `[lower, upper]`, unset the mask and decrement the counter. -/
def rejectLoop (lower upper : α) : List Bool → List α → ℕ → List Bool × ℕ
  | [], _, num => ([], num)
  | m :: ms, [], num => (m :: ms, num)
  | m :: ms, x :: xs, num =>
    if m = true ∧ (x < lower ∨ upper < x) then
      ((false :: (rejectLoop lower upper ms xs (num - 1)).1),
       (rejectLoop lower upper ms xs (num - 1)).2)
    else
      ((m :: (rejectLoop lower upper ms xs num).1),
       (rejectLoop lower upper ms xs num).2)

/-- Translation of one whole outlier-rejection pass (mtlognorm.cpp:286-308):
collect the masked values, reset the voxel counter to their number, sort,
take quartiles, derive fences, and unset outliers (decrementing the counter).
Returns the updated mask and the updated voxel count. -/
def rejectOutliers (mask : List Bool) (L : List α) : List Bool × ℕ :=
  rejectLoop (outlierThresholds (collectMaskedValues mask L)).1
    (outlierThresholds (collectMaskedValues mask L)).2
    mask L (collectMaskedValues mask L).length

/-- Translation of the mask update of one non-converged inner iteration
(mtlognorm.cpp:284-308): re-derive the working mask from the *initial* mask
and the current summed-log image via `refine_mask`, then reject outliers. -/
def innerMaskPass (initial : List Bool) (L : List α) : List Bool × ℕ :=
  rejectOutliers (refineMask L initial) L

/-- Number of true voxels of a mask. -/
def countTrue (l : List Bool) : ℕ := (l.filter (fun b => b)).length

/-! ### Scale-factor positivity check and geometric-mean renormalisation
(mtlognorm.cpp:251-260) -/

/-- Translation of the `log_sum` loop (mtlognorm.cpp:252-259): iterate the
tissue indices in order; at the first index whose scale factor is `≤ 0`, fail
carrying that index and the offending raw value; otherwise accumulate the sum
of logarithms. -/
noncomputable def log_sum_loop (n : ℕ) (c : Fin n → ℝ) :
    List (Fin n) → ℝ → Except (ℕ × ℝ) ℝ
  | [], acc => .ok acc
  | j :: js, acc =>
    if c j ≤ 0 then .error (j.val, c j)
    else log_sum_loop n c js (acc + Real.log (c j))

/-- The geometric-mean renormalisation (mtlognorm.cpp:260): divide every
component by `exp` of the mean logarithm. -/
noncomputable def renormalise (n : ℕ) (c : Fin n → ℝ) : Fin n → ℝ :=
  fun j => c j / Real.exp ((∑ i, Real.log (c i)) / (n : ℝ))

/-- Translation of the whole check-and-renormalise step (mtlognorm.cpp:251-260):
compute the log sum with the positivity check, then divide by
`exp (log_sum / n)`.  An `Except.error` models the thrown `Exception`. -/
noncomputable def checkAndNormalise (n : ℕ) (c : Fin n → ℝ) :
    Except (ℕ × ℝ) (Fin n → ℝ) :=
  match log_sum_loop n c (List.finRange n) 0 with
  | .error e => .error e
  | .ok s => .ok (fun j => c j / Real.exp (s / (n : ℝ)))

/-! ### The summed-log image of the inner loop (mtlognorm.cpp:274-282) -/

/-- One voxel sweep of tissue `j` (mtlognorm.cpp:276-279): add
`scale_factors(j) * combined_tissue(v,j) / bias_field_image(v)` to the
accumulator image at every voxel. -/
noncomputable def tissuePass (nt nv : ℕ) (c : Fin nt → ℝ)
    (tissue : Fin nt → Fin nv → ℝ) (bias : Fin nv → ℝ) (j : Fin nt)
    (s : Fin nv → ℝ) : Fin nv → ℝ :=
  fun v => s v + c j * tissue j v / bias v

/-- The misplaced statement `summed_log.value() = std::log(summed_log.value())`
(mtlognorm.cpp:281): it sits inside the tissue loop but after (outside) the
voxel loop, so it rewrites the image at the single position the image cursor
holds once the voxel loop has finished.  That position is a property of the
external image/loop abstraction, so it is kept as a parameter: `some v₀` if
the cursor lands on grid voxel `v₀`, `none` if the write lands outside the
3D extent (the value is then lost to the grid). -/
noncomputable def applyStrayLog (nv : ℕ) (cursor : Option (Fin nv))
    (s : Fin nv → ℝ) : Fin nv → ℝ :=
  match cursor with
  | none => s
  | some v₀ => Function.update s v₀ (Real.log (s v₀))

/-- Translation of the `summed_log` computation as written
(mtlognorm.cpp:274-282): starting from the zero-initialised scratch image, for
each tissue in order, accumulate its scaled bias-divided contribution over all
voxels and then apply the stray log at the cursor position. -/
noncomputable def summedLogBuggy (nt nv : ℕ) (c : Fin nt → ℝ)
    (tissue : Fin nt → Fin nv → ℝ) (bias : Fin nv → ℝ)
    (cursor : Option (Fin nv)) : Fin nv → ℝ :=
  (List.finRange nt).foldl
    (fun s j => applyStrayLog nv cursor (tissuePass nt nv c tissue bias j s))
    (fun _ => 0)

/-- Modelled from the spec: the log-domain summed signal the spec prescribes
for this step, `L(v) = log (Σ_j c_j · tissue_j(v) / bias(v))` at every voxel
`v` (spec §4.2 step 6). -/
noncomputable def summedLogSpec (nt nv : ℕ) (c : Fin nt → ℝ)
    (tissue : Fin nt → Fin nv → ℝ) (bias : Fin nv → ℝ) : Fin nv → ℝ :=
  fun v => Real.log (∑ j, c j * tissue j v / bias v)

/-! ### Loop structure of the outer driver (mtlognorm.cpp:217-359) -/

/-- Number of body executions of the outer `while (iter < max_iter)` loop
(mtlognorm.cpp:220, 358) when entered with counter value `iter`; the body
increments the counter at its end and contains no break. -/
def loopIters (max_iter iter : ℕ) : ℕ :=
  if iter < max_iter then loopIters max_iter (iter + 1) + 1 else 0
termination_by max_iter - iter

/-- Number of body executions of the inner
`while (!norm_converged && norm_iter < max_iter)` loop (mtlognorm.cpp:229,316)
for a given outer counter `outer_iter`.  The body sets `norm_converged` only
when `iter > 1` and the convergence test of that inner iteration fires; the
test outcome (`diff.mean() < 0.001`, which depends on the image data) is
abstracted as `convTest`. -/
def innerLoopCount (outer_iter max_iter : ℕ) (convTest : ℕ → Bool)
    (norm_iter : ℕ) (converged : Bool) : ℕ :=
  if h : converged = false ∧ norm_iter < max_iter then
    innerLoopCount outer_iter max_iter convTest (norm_iter + 1)
      (decide (1 < outer_iter) && convTest norm_iter) + 1
  else 0
termination_by max_iter - norm_iter
decreasing_by
  have := h.2
  omega

/-- The mutable state threaded through the outer loop that the output stage
later reads: the scale-factor vector (declared at mtlognorm.cpp:214 and
assigned only inside the loop body, hence `Option`), and the bias field in
image and log domain. -/
structure OuterState (n nv : ℕ) where
  scale_factors : Option (Fin n → ℝ)
  bias_field_image : Fin nv → ℝ
  bias_field_log : Fin nv → ℝ

/-- The state on entry of the outer loop (mtlognorm.cpp:204-215): bias field
initialised to one (image domain) and zero (log domain), scale factors
declared but not assigned. -/
def initOuterState (n nv : ℕ) : OuterState n nv :=
  ⟨none, fun _ => 1, fun _ => 0⟩

/-- The outer `while (iter < max_iter)` loop as a state transformer
(mtlognorm.cpp:220-359), with the loop body abstracted. -/
def runOuter {St : Type} (body : St → St) (max_iter iter : ℕ) (s : St) : St :=
  if iter < max_iter then runOuter body max_iter (iter + 1) (body s) else s
termination_by max_iter - iter

/-! ### Output compositing (mtlognorm.cpp:376-403) -/

/-- Translation of the joint-mode averaging (mtlognorm.cpp:376-384): without
`-independent`, every factor is replaced by `exp` of the mean logarithm of all
factors; with it, the raw factors are kept. -/
noncomputable def final_scale_factors (independent : Bool) (n : ℕ)
    (c : Fin n → ℝ) : Fin n → ℝ :=
  if independent then c
  else fun _ => Real.exp ((∑ j, Real.log (c j)) / (n : ℝ))

/-- Translation of the per-sample output computation (mtlognorm.cpp:400-401):
scale times input over bias, then clamped from below by zero. -/
noncomputable def output_value (scale tissue bias : ℝ) : ℝ :=
  max (scale * tissue / bias) 0

/-- One written output volume: the metadata tag
`normalisation_scale_factor` (mtlognorm.cpp:396) and the samples. -/
structure OutputVolume (nv : ℕ) where
  tag : ℝ
  samples : Fin nv → ℝ

/-- Translation of the output loop (mtlognorm.cpp:395-403): for each tissue,
tag the header with its final scale factor and write the clamped scaled
bias-divided samples, reading the *original* (unclamped) input images. -/
noncomputable def composeOutputs (independent : Bool) (n nv : ℕ)
    (c : Fin n → ℝ) (inputs : Fin n → Fin nv → ℝ) (bias : Fin nv → ℝ) :
    Fin n → OutputVolume nv :=
  fun j =>
    ⟨final_scale_factors independent n c j,
     fun v => output_value (final_scale_factors independent n c j)
       (inputs j v) (bias v)⟩

/-! ### The polynomial basis (mtlognorm.cpp:75-101) -/

/-- Translation of `basis_function` (mtlognorm.cpp:75-101): the 20 basis
entries in the order they are assigned to `basis(0) .. basis(19)`. -/
def basis_function (x y z : ℝ) : List ℝ :=
  [1, x, y, z,
   x * x, y * y, z * z,
   x * y, x * z, y * z,
   x * x * x, y * y * y, z * z * z,
   x * x * y, x * x * z,
   y * y * x, y * y * z,
   z * z * x, z * z * y,
   x * y * z]

/-! ### Arithmetic facts about the quartile indices -/

theorem floor_natCast_div_four (m : ℕ) :
    ⌊((m : ℚ)) / 4⌋ = ((m / 4 : ℕ) : ℤ) := by
  rw [Int.floor_eq_iff]
  constructor
  · rw [le_div_iff₀ (by norm_num : (0 : ℚ) < 4)]
    have h : (m / 4) * 4 ≤ m := Nat.div_mul_le_self m 4
    exact_mod_cast h
  · rw [div_lt_iff₀ (by norm_num : (0 : ℚ) < 4)]
    have h : m < (m / 4 + 1) * 4 := by omega
    exact_mod_cast h

theorem lower_quartile_index_eq (n : ℕ) :
    lower_quartile_index n = (n + 2) / 4 := by
  unfold lower_quartile_index
  rw [round_eq]
  have h : (n : ℚ) * 0.25 + 1 / 2 = ((n + 2 : ℕ) : ℚ) / 4 := by
    push_cast
    ring
  rw [h, floor_natCast_div_four]
  exact Int.toNat_natCast _

theorem upper_quartile_index_eq (n : ℕ) :
    upper_quartile_index n = (3 * n + 2) / 4 := by
  unfold upper_quartile_index
  rw [round_eq]
  have h : (n : ℚ) * 0.75 + 1 / 2 = ((3 * n + 2 : ℕ) : ℚ) / 4 := by
    push_cast
    ring
  rw [h, floor_natCast_div_four]
  exact Int.toNat_natCast _

/-- C3: for a masked-value vector of size `n ≤ 2` (including `n = 0` after mask
refinement empties the working mask), the upper-quartile lookup position
`round(n·0.75)` is `≥ n`, i.e. out of bounds for the sorted vector of length
`n`; for every `n ≥ 3` both quartile positions are within bounds. -/
theorem quartile_index_bounds (n : ℕ) :
    (n ≤ 2 → n ≤ upper_quartile_index n) ∧
    (3 ≤ n → lower_quartile_index n < n ∧ upper_quartile_index n < n) := by
  rw [lower_quartile_index_eq, upper_quartile_index_eq]
  omega

/-- Witness for C3 at the concrete sizes `n = 2` (out of bounds) and `n = 5`
(in bounds). -/
theorem quartile_index_bounds_witness :
    (2 ≤ upper_quartile_index 2) ∧
    (lower_quartile_index 5 < 5 ∧ upper_quartile_index 5 < 5) :=
  ⟨(quartile_index_bounds 2).1 (by decide),
   (quartile_index_bounds 5).2 (by decide)⟩

/-! ### Outer-loop iteration structure -/

theorem loopIters_eq (max_iter iter : ℕ) :
    loopIters max_iter iter = max_iter - iter := by
  rw [loopIters]
  split
  next h =>
    rw [loopIters_eq max_iter (iter + 1)]
    omega
  next h => omega
termination_by max_iter - iter

theorem innerLoopCount_le (o m : ℕ) (t : ℕ → Bool) (ni : ℕ) (cv : Bool) :
    innerLoopCount o m t ni cv ≤ m - ni := by
  rw [innerLoopCount]
  split
  next h =>
    have h2 := h.2
    have hrec := innerLoopCount_le o m t (ni + 1) (decide (1 < o) && t ni)
    omega
  next h => omega
termination_by m - ni
decreasing_by omega

theorem innerLoopCount_first_outer (m : ℕ) (t : ℕ → Bool) (ni : ℕ) :
    innerLoopCount 1 m t ni false = m - ni := by
  rw [innerLoopCount]
  split
  next h =>
    have h2 := h.2
    have hd : (decide (1 < 1) && t ni) = false := by simp
    rw [hd, innerLoopCount_first_outer m t (ni + 1)]
    omega
  next h =>
    simp only [eq_self_iff_true, true_and] at h
    omega
termination_by m - ni
decreasing_by omega

/-- C8: the outer loop body executes exactly `max_iter − 1` times when
`max_iter ≥ 1` (counter starts at 1, runs while `< max_iter`, no other exit);
every inner loop performs at most `max_iter − 1` iterations (same cap and
counting scheme); and in the first outer pass (`iter = 1`) the inner
convergence test is disabled, so the inner loop runs exactly to the cap
whatever the test outcomes would have been. -/
theorem iteration_counts (max_iter outer_iter : ℕ) (convTest : ℕ → Bool)
    (_hm : 1 ≤ max_iter) :
    loopIters max_iter 1 = max_iter - 1 ∧
    innerLoopCount outer_iter max_iter convTest 1 false ≤ max_iter - 1 ∧
    innerLoopCount 1 max_iter convTest 1 false = max_iter - 1 :=
  ⟨loopIters_eq max_iter 1, innerLoopCount_le outer_iter max_iter convTest 1 false,
   innerLoopCount_first_outer max_iter convTest 1⟩

/-- Witness for C8 at `max_iter = 3`, second outer pass, an always-true
convergence test. -/
theorem iteration_counts_witness :
    loopIters 3 1 = 2 ∧
    innerLoopCount 2 3 (fun _ => true) 1 false ≤ 2 ∧
    innerLoopCount 1 3 (fun _ => true) 1 false = 2 :=
  iteration_counts 3 2 (fun _ => true) (by decide)

/-- C4: if `max_iter ≤ 1` the outer loop body never executes (zero
iterations), so the state reaching the output stage is exactly the initial
state: the scale-factor vector is still the declared-but-never-assigned value
(`none`), while the bias field is still its all-ones initialisation — the
output stage then computes tags and samples from an unassigned vector. -/
theorem no_iteration_uninitialised_output (n nv max_iter : ℕ)
    (body : OuterState n nv → OuterState n nv) (hm : max_iter ≤ 1) :
    runOuter body max_iter 1 (initOuterState n nv) = initOuterState n nv ∧
    (runOuter body max_iter 1 (initOuterState n nv)).scale_factors = none ∧
    (∀ v, (runOuter body max_iter 1 (initOuterState n nv)).bias_field_image v = 1) ∧
    loopIters max_iter 1 = 0 := by
  have h1 : ¬ (1 < max_iter) := by omega
  have hr : runOuter body max_iter 1 (initOuterState n nv) = initOuterState n nv := by
    rw [runOuter, if_neg h1]
  refine ⟨hr, ?_, ?_, ?_⟩
  · rw [hr]
    rfl
  · intro v
    rw [hr]
    rfl
  · rw [loopIters, if_neg h1]

/-- Witness for C4 at `max_iter = 1` with two tissues, one voxel and an
arbitrary concrete loop body. -/
theorem no_iteration_uninitialised_output_witness :
    runOuter id 1 1 (initOuterState 2 1) = initOuterState 2 1 ∧
    (runOuter id 1 1 (initOuterState 2 1)).scale_factors = none ∧
    (∀ v, (runOuter id 1 1 (initOuterState 2 1)).bias_field_image v = 1) ∧
    loopIters 1 1 = 0 :=
  no_iteration_uninitialised_output 2 1 1 id (by decide)

/-! ### Output compositing -/

/-- C9: every written output sample equals
`max(0, c_j · tissue_j(v) / bias(v))` with `c_j` the final (joint or
independent mode) scale factor of tissue `j`; hence every sample is `≥ 0`
whatever the sign of the inputs, and the volume's metadata tag carries exactly
that `c_j`. -/
theorem output_nonneg_and_tagged (independent : Bool) (n nv : ℕ)
    (c : Fin n → ℝ) (inputs : Fin n → Fin nv → ℝ) (bias : Fin nv → ℝ)
    (j : Fin n) (v : Fin nv) :
    (composeOutputs independent n nv c inputs bias j).samples v
      = max 0 (final_scale_factors independent n c j * inputs j v / bias v) ∧
    0 ≤ (composeOutputs independent n nv c inputs bias j).samples v ∧
    (composeOutputs independent n nv c inputs bias j).tag
      = final_scale_factors independent n c j := by
  refine ⟨?_, ?_, rfl⟩
  · exact max_comm _ _
  · exact le_max_right _ _

/-! ### The outlier-rejection pass -/

theorem not_outside_eq_inside (lo hi x : α) :
    (!(decide (x < lo) || decide (hi < x))) = decide (lo ≤ x ∧ x ≤ hi) := by
  by_cases h1 : x < lo
  · simp [h1, not_le.mpr h1]
  · by_cases h2 : hi < x
    · simp [h1, h2, not_le.mpr h2]
    · simp [h1, h2, not_lt.mp h1, not_lt.mp h2]

theorem rejectLoop_eq (lo hi : α) (ms : List Bool) (xs : List α) (num : ℕ)
    (hlen : ms.length = xs.length) :
    rejectLoop lo hi ms xs num =
      (List.zipWith (fun m x => m && decide (lo ≤ x ∧ x ≤ hi)) ms xs,
       num - ((collectMaskedValues ms xs).filter
         (fun x => decide (x < lo) || decide (hi < x))).length) := by
  induction ms generalizing xs num with
  | nil =>
    cases xs with
    | nil => simp [rejectLoop, collectMaskedValues]
    | cons x xs => simp at hlen
  | cons m ms ih =>
    cases xs with
    | nil => simp at hlen
    | cons x xs =>
      have hlen2 : ms.length = xs.length := by simpa using hlen
      by_cases hc : m = true ∧ (x < lo ∨ hi < x)
      · rw [rejectLoop, if_pos hc, ih xs (num - 1) hlen2]
        obtain ⟨hm, hout⟩ := hc
        subst hm
        have hofalse : ¬ (lo ≤ x ∧ x ≤ hi) := by
          rcases hout with h | h
          · exact fun hin => absurd hin.1 (not_le.mpr h)
          · exact fun hin => absurd hin.2 (not_le.mpr h)
        have hobool : (decide (x < lo) || decide (hi < x)) = true := by
          rcases hout with h | h
          · simp [h]
          · simp [h]
        refine Prod.ext ?_ ?_
        · have hd : decide (lo ≤ x ∧ x ≤ hi) = false := decide_eq_false hofalse
          simp only [List.zipWith_cons_cons, hd, Bool.and_false]
        · simp only [collectMaskedValues, if_true]
          rw [List.filter_cons_of_pos]
          · simp only [List.length_cons]
            omega
          · exact hobool
      · rw [rejectLoop, if_neg hc, ih xs num hlen2]
        by_cases hm : m = true
        · subst hm
          have hin : ¬ (x < lo ∨ hi < x) := fun h => hc ⟨rfl, h⟩
          have hin1 : lo ≤ x := not_lt.mp (fun h => hin (Or.inl h))
          have hin2 : x ≤ hi := not_lt.mp (fun h => hin (Or.inr h))
          refine Prod.ext ?_ ?_
          · simp [hin1, hin2]
          · simp only [collectMaskedValues, if_true]
            rw [List.filter_cons_of_neg]
            simp [not_lt.mpr hin1, not_lt.mpr hin2]
        · have hm2 : m = false := by
            cases m
            · rfl
            · exact absurd rfl hm
          subst hm2
          refine Prod.ext ?_ ?_
          · simp
          · simp [collectMaskedValues]

theorem filter_length_add_filter_neg_length {β : Type} (p : β → Bool)
    (l : List β) :
    (l.filter p).length + (l.filter (fun x => !(p x))).length = l.length := by
  induction l with
  | nil => rfl
  | cons x xs ih =>
    by_cases h : p x = true
    · rw [List.filter_cons_of_pos h, List.filter_cons_of_neg (by simp [h])]
      simp only [List.length_cons]
      omega
    · rw [List.filter_cons_of_neg h,
        List.filter_cons_of_pos (by simp [Bool.eq_false_iff.mpr h])]
      simp only [List.length_cons]
      omega

/-- C7: for a working mask with at least three masked voxels (so the quartile
indices are in bounds), one outlier-rejection pass — quartiles read off the
sorted masked-value list at indices `round(n·0.25)` and `round(n·0.75)`,
fences `Q1 − 1.6·(Q3−Q1)` and `Q3 + 1.6·(Q3−Q1)` — unsets exactly the masked
voxels whose value lies strictly outside `[lower, upper]`, and the resulting
voxel count is exactly the number of masked values inside the fences (the
initial count `n` decremented once per removed voxel). -/
theorem outlier_rejection_exact (mask : List Bool) (L : List ℝ)
    (hlen : mask.length = L.length)
    (_hn : 3 ≤ (collectMaskedValues mask L).length) :
    (rejectOutliers mask L).1 = List.zipWith
      (fun m x => m &&
        decide ((outlierThresholds (collectMaskedValues mask L)).1 ≤ x ∧
          x ≤ (outlierThresholds (collectMaskedValues mask L)).2)) mask L ∧
    (rejectOutliers mask L).2 = ((collectMaskedValues mask L).filter
      (fun x =>
        decide ((outlierThresholds (collectMaskedValues mask L)).1 ≤ x ∧
          x ≤ (outlierThresholds (collectMaskedValues mask L)).2))).length ∧
    (outlierThresholds (collectMaskedValues mask L)).1
      = (quartilesOf (collectMaskedValues mask L)).1
        - 1.6 * ((quartilesOf (collectMaskedValues mask L)).2
          - (quartilesOf (collectMaskedValues mask L)).1) ∧
    (outlierThresholds (collectMaskedValues mask L)).2
      = (quartilesOf (collectMaskedValues mask L)).2
        + 1.6 * ((quartilesOf (collectMaskedValues mask L)).2
          - (quartilesOf (collectMaskedValues mask L)).1) := by
  have hmain := rejectLoop_eq
    (outlierThresholds (collectMaskedValues mask L)).1
    (outlierThresholds (collectMaskedValues mask L)).2
    mask L (collectMaskedValues mask L).length hlen
  refine ⟨?_, ?_, rfl, rfl⟩
  · rw [rejectOutliers, hmain]
  · rw [rejectOutliers, hmain]
    have hcompl := filter_length_add_filter_neg_length
      (fun x => decide (x < (outlierThresholds (collectMaskedValues mask L)).1)
        || decide ((outlierThresholds (collectMaskedValues mask L)).2 < x))
      (collectMaskedValues mask L)
    have hnot : ((collectMaskedValues mask L).filter
        (fun x =>
          !(decide (x < (outlierThresholds (collectMaskedValues mask L)).1)
            || decide ((outlierThresholds (collectMaskedValues mask L)).2 < x))))
        = ((collectMaskedValues mask L).filter
        (fun x =>
          decide ((outlierThresholds (collectMaskedValues mask L)).1 ≤ x ∧
            x ≤ (outlierThresholds (collectMaskedValues mask L)).2))) := by
      apply List.filter_congr
      intro x _
      exact not_outside_eq_inside _ _ x
    rw [hnot] at hcompl
    omega

/-- Witness for C7 on the concrete mask `[true, true, true]` and values
`[1, 2, 3]`. -/
theorem outlier_rejection_exact_witness :
    (rejectOutliers [true, true, true] [(1 : ℝ), 2, 3]).2
      = ((collectMaskedValues [true, true, true] [(1 : ℝ), 2, 3]).filter
        (fun x =>
          decide ((outlierThresholds
            (collectMaskedValues [true, true, true] [(1 : ℝ), 2, 3])).1 ≤ x ∧
            x ≤ (outlierThresholds
              (collectMaskedValues [true, true, true] [(1 : ℝ), 2, 3])).2))).length :=
  (outlier_rejection_exact [true, true, true] [(1 : ℝ), 2, 3] rfl
    (by simp [collectMaskedValues])).2.1

/-! ### Mask evolution across inner iterations -/

theorem rejectLoop_countTrue_le (lo hi : α) (ms : List Bool) (xs : List α)
    (num : ℕ) :
    countTrue (rejectLoop lo hi ms xs num).1 ≤ countTrue ms := by
  induction ms generalizing xs num with
  | nil => simp [rejectLoop]
  | cons m ms ih =>
    cases xs with
    | nil => simp [rejectLoop]
    | cons x xs =>
      rw [rejectLoop]
      by_cases hc : m = true ∧ (x < lo ∨ hi < x)
      · rw [if_pos hc]
        have := ih xs (num - 1)
        cases m <;> simp [countTrue, List.filter] at this ⊢ <;> omega
      · rw [if_neg hc]
        have := ih xs num
        cases m <;> simp [countTrue, List.filter] at this ⊢ <;> omega

theorem rejectLoop_getD_true (lo hi : α) (ms : List Bool) (xs : List α)
    (num i : ℕ)
    (h : (rejectLoop lo hi ms xs num).1.getD i false = true) :
    ms.getD i false = true := by
  induction ms generalizing xs num i with
  | nil => simp [rejectLoop] at h
  | cons m ms ih =>
    cases xs with
    | nil => simpa [rejectLoop] using h
    | cons x xs =>
      rw [rejectLoop] at h
      by_cases hc : m = true ∧ (x < lo ∨ hi < x)
      · rw [if_pos hc] at h
        cases i with
        | zero => simp at h
        | succ i =>
          rw [List.getD_cons_succ] at h ⊢
          exact ih xs (num - 1) i h
      · rw [if_neg hc] at h
        cases i with
        | zero => simpa using h
        | succ i =>
          rw [List.getD_cons_succ] at h ⊢
          exact ih xs num i h

theorem refineMask_countTrue_le (ss : List α) (ms : List Bool) :
    countTrue (refineMask ss ms) ≤ countTrue ms := by
  induction ss generalizing ms with
  | nil => simp [refineMask, countTrue]
  | cons s ss ih =>
    cases ms with
    | nil => simp [refineMask, countTrue]
    | cons m ms =>
      rw [refineMask]
      have := ih ms
      by_cases hs : (0 : α) < s
      · cases m <;> simp [countTrue, List.filter, hs] at this ⊢ <;> omega
      · cases m <;> simp [countTrue, List.filter, hs] at this ⊢ <;> omega

theorem refineMask_getD_true (ss : List α) (ms : List Bool) (i : ℕ)
    (h : (refineMask ss ms).getD i false = true) :
    ms.getD i false = true := by
  induction ss generalizing ms i with
  | nil => simp [refineMask] at h
  | cons s ss ih =>
    cases ms with
    | nil => simp [refineMask] at h
    | cons m ms =>
      rw [refineMask] at h
      cases i with
      | zero =>
        rw [List.getD_cons_zero] at h ⊢
        exact (Bool.and_eq_true_iff.mp h).2
      | succ i =>
        rw [List.getD_cons_succ] at h ⊢
        exact ih ms i h

/-- C2 (amended): within a single inner iteration the working mask is
re-derived — refinement from the *initial* mask followed by outlier
rejection, which only removes voxels: every voxel true after the pass was
true in the refined mask (hence in the initial mask), and the true count
after the pass is at most the refined mask's, which is at most the initial
mask's.  Across consecutive inner iterations, however, the count may
increase, because refinement restarts from the initial mask and can re-add
voxels that an earlier rejection removed (see the counterexample). -/
theorem inner_mask_pass_only_removes (initial : List Bool) (L : List ℝ) :
    countTrue (innerMaskPass initial L).1 ≤ countTrue (refineMask L initial) ∧
    countTrue (refineMask L initial) ≤ countTrue initial ∧
    (∀ i, (innerMaskPass initial L).1.getD i false = true →
      initial.getD i false = true) := by
  refine ⟨?_, refineMask_countTrue_le L initial, ?_⟩
  · rw [innerMaskPass, rejectOutliers]
    exact rejectLoop_countTrue_le _ _ _ _ _
  · intro i h
    rw [innerMaskPass, rejectOutliers] at h
    exact refineMask_getD_true L initial i
      (rejectLoop_getD_true _ _ _ _ _ i h)

/-- Witness for C2 (amended) on a concrete one-voxel mask. -/
theorem inner_mask_pass_only_removes_witness :
    countTrue (innerMaskPass [true] [(1 : ℝ)]).1
      ≤ countTrue (refineMask [(1 : ℝ)] [true]) ∧
    countTrue (refineMask [(1 : ℝ)] [true]) ≤ countTrue [true] :=
  ⟨(inner_mask_pass_only_removes [true] [(1 : ℝ)]).1,
   (inner_mask_pass_only_removes [true] [(1 : ℝ)]).2.1⟩

/-- C2 counterexample: the true-voxel count of the working mask can increase
from one inner iteration to the next.  Seven initially masked voxels; the
first iteration's summed-log volume carries one outlier (value 50 against
quartiles Q1 = Q3 = 1, fences `[1, 1]`), so the pass removes it and the count
drops to 6; the next iteration's volume (all ones, as produced by updated
scale factors) has no outlier, and the pass — restarted from the initial
mask — returns count 7 > 6, falsifying the claimed non-increase. -/
theorem mask_count_can_increase :
    ¬ ((innerMaskPass [true, true, true, true, true, true, true]
          (List.replicate 7 (1 : ℚ))).2
        ≤ (innerMaskPass [true, true, true, true, true, true, true]
          [(1 : ℚ), 1, 1, 1, 1, 1, 50]).2) := by
  have h1 : (innerMaskPass [true, true, true, true, true, true, true]
      [(1 : ℚ), 1, 1, 1, 1, 1, 50]).2 = 6 := by
    norm_num [innerMaskPass, refineMask, rejectOutliers, collectMaskedValues,
      sortValues, insertSorted, quartilesOf, outlierThresholds,
      lower_quartile_index_eq, upper_quartile_index_eq, rejectLoop]
  have h2 : (innerMaskPass [true, true, true, true, true, true, true]
      (List.replicate 7 (1 : ℚ))).2 = 7 := by
    norm_num [innerMaskPass, refineMask, rejectOutliers, collectMaskedValues,
      sortValues, insertSorted, quartilesOf, outlierThresholds,
      lower_quartile_index_eq, upper_quartile_index_eq, rejectLoop,
      List.replicate]
  rw [h1, h2]
  omega

/-! ### Positivity check and geometric-mean renormalisation -/

theorem log_sum_loop_all_pos (n : ℕ) (c : Fin n → ℝ) (js : List (Fin n))
    (acc : ℝ) (h : ∀ j ∈ js, 0 < c j) :
    log_sum_loop n c js acc = .ok (acc + (js.map (fun j => Real.log (c j))).sum) := by
  induction js generalizing acc with
  | nil => simp [log_sum_loop]
  | cons j js ih =>
    have hj : 0 < c j := h j (List.mem_cons_self j js)
    rw [log_sum_loop, if_neg (not_le.mpr hj),
      ih (acc + Real.log (c j)) (fun i hi => h i (List.mem_cons_of_mem j hi))]
    simp [add_assoc]

theorem log_sum_loop_first_nonpos (n : ℕ) (c : Fin n → ℝ) (js : List (Fin n))
    (acc : ℝ) (h : ∃ j ∈ js, c j ≤ 0) :
    ∃ j ∈ js, c j ≤ 0 ∧ log_sum_loop n c js acc = .error (j.val, c j) := by
  induction js generalizing acc with
  | nil => simp at h
  | cons j js ih =>
    by_cases hj : c j ≤ 0
    · exact ⟨j, List.mem_cons_self j js, hj, by rw [log_sum_loop, if_pos hj]⟩
    · have h2 : ∃ i ∈ js, c i ≤ 0 := by
        rcases h with ⟨i, hi, hile⟩
        rcases List.mem_cons.mp hi with rfl | hmem
        · exact absurd hile hj
        · exact ⟨i, hmem, hile⟩
      rcases ih (acc + Real.log (c j)) h2 with ⟨i, hmem, hile, heq⟩
      exact ⟨i, List.mem_cons_of_mem j hmem, hile, by
        rw [log_sum_loop, if_neg hj, heq]⟩

/-- C5: immediately after each least-squares solve, the check-and-normalise
step either fails — precisely when some raw solved factor is `≤ 0`, reporting
the offending tissue index together with its raw (unnormalised) value — or
returns the geometric-mean renormalisation of the raw vector: the check runs
on the raw factors, before renormalisation, with no clamping or retry. -/
theorem scale_factor_positivity (n : ℕ) (c : Fin n → ℝ) :
    ((∃ j, c j ≤ 0) ↔ ∃ e, checkAndNormalise n c = .error e) ∧
    (∀ e, checkAndNormalise n c = .error e →
      ∃ j : Fin n, e = (j.val, c j) ∧ c j ≤ 0) ∧
    ((∀ j, 0 < c j) → checkAndNormalise n c = .ok (renormalise n c)) := by
  have hok : (∀ j, 0 < c j) → checkAndNormalise n c = .ok (renormalise n c) := by
    intro hpos
    rw [checkAndNormalise,
      log_sum_loop_all_pos n c (List.finRange n) 0
        (fun j _ => hpos j)]
    have hs : (0 : ℝ) + ((List.finRange n).map (fun j => Real.log (c j))).sum
        = ∑ i, Real.log (c i) := by
      rw [zero_add, Fin.sum_univ_def]
    rw [hs]
    rfl
  refine ⟨?_, ?_, hok⟩
  · constructor
    · intro hex
      rcases hex with ⟨j, hj⟩
      rcases log_sum_loop_first_nonpos n c (List.finRange n) 0
          ⟨j, List.mem_finRange j, hj⟩ with ⟨i, _, _, heq⟩
      exact ⟨(i.val, c i), by rw [checkAndNormalise, heq]⟩
    · intro hex
      by_contra hno
      push_neg at hno
      rcases hex with ⟨e, he⟩
      rw [hok (fun j => hno j)] at he
      exact Except.noConfusion he
  · intro e he
    by_cases hpos : ∀ j, 0 < c j
    · rw [hok hpos] at he
      exact Except.noConfusion he
    · push_neg at hpos
      rcases hpos with ⟨j, hj⟩
      rcases log_sum_loop_first_nonpos n c (List.finRange n) 0
          ⟨j, List.mem_finRange j, hj⟩ with ⟨i, _, hile, heq⟩
      rw [checkAndNormalise, heq] at he
      refine ⟨i, ?_, hile⟩
      have := Except.error.inj he
      exact this.symm

/-- Witness for C5 on the strictly positive concrete vector `(2, 8)`. -/
theorem scale_factor_positivity_witness :
    checkAndNormalise 2 ![2, 8] = .ok (renormalise 2 ![2, 8]) :=
  (scale_factor_positivity 2 ![2, 8]).2.2 (fun j => by
    fin_cases j <;> norm_num)

/-- C6: after the renormalisation of an inner iteration, the geometric mean of
the scale-factor vector is exactly one (in exact real arithmetic):
`exp (mean (log (renormalised factors))) = 1` for every strictly positive
input vector. -/
theorem geometric_mean_one (n : ℕ) (c : Fin n → ℝ) (hn : 0 < n)
    (hc : ∀ j, 0 < c j) :
    Real.exp ((∑ j, Real.log (renormalise n c j)) / (n : ℝ)) = 1 := by
  have hnR : (n : ℝ) ≠ 0 := Nat.cast_ne_zero.mpr hn.ne'
  have hlog : ∀ j, Real.log (renormalise n c j)
      = Real.log (c j) - (∑ i, Real.log (c i)) / (n : ℝ) := by
    intro j
    rw [renormalise, Real.log_div (hc j).ne' (Real.exp_ne_zero _), Real.log_exp]
  have hsum : (∑ j, Real.log (renormalise n c j)) = 0 := by
    simp only [hlog]
    rw [Finset.sum_sub_distrib, Finset.sum_const, Finset.card_univ,
      Fintype.card_fin, nsmul_eq_mul, mul_div_cancel₀ _ hnR, sub_self]
  rw [hsum, zero_div, Real.exp_zero]

/-- Witness for C6 with two tissues and factors `(1, 1)`. -/
theorem geometric_mean_one_witness :
    Real.exp ((∑ j, Real.log (renormalise 2 ![1, 1] j)) / ((2 : ℕ) : ℝ)) = 1 :=
  geometric_mean_one 2 ![1, 1] (by decide) (fun j => by
    fin_cases j <;> norm_num)

/-! ### The misplaced logarithm in the summed-log computation -/

theorem log_two_lt_two : Real.log 2 < 2 := by
  have h := Real.log_lt_sub_one_of_pos (by norm_num : (0 : ℝ) < 2) (by norm_num)
  linarith

/-- C1 (refuted on the code; the code, evaluated at a failing input): on two
tissues and two voxels with all tissue values 1, bias 1 and scale factors
`(1, 1)`, the spec's log-domain summed signal is `log 2` at every voxel, but
the `summed_log` image the code computes never holds `log 2` anywhere —
whatever single position the stray `std::log` statement lands on (any grid
voxel, or off the grid): non-cursor voxels keep the raw sum `2`, and a cursor
voxel ends at `log 1 = 0`. -/
theorem summed_log_stray_log_bug (cursor : Option (Fin 2)) (v : Fin 2) :
    summedLogBuggy 2 2 (fun _ => 1) (fun _ _ => 1) (fun _ => 1) cursor v
      ≠ summedLogSpec 2 2 (fun _ => 1) (fun _ _ => 1) (fun _ => 1) v := by
  have hspec : summedLogSpec 2 2 (fun _ => 1) (fun _ _ => 1) (fun _ => 1) v
      = Real.log 2 := by
    simp only [summedLogSpec, Fin.sum_univ_two]
    norm_num
  rw [hspec]
  have hfr : List.finRange 2 = [(0 : Fin 2), (1 : Fin 2)] := by decide
  rw [summedLogBuggy, hfr]
  simp only [List.foldl_cons, List.foldl_nil]
  cases cursor with
  | none =>
    simp only [applyStrayLog, tissuePass]
    norm_num
    exact log_two_lt_two.ne'
  | some v₀ =>
    by_cases hv : v = v₀
    · subst hv
      simp only [applyStrayLog, tissuePass, Function.update_same]
      norm_num
      exact (Real.log_pos (by norm_num)).ne
    · simp only [applyStrayLog, tissuePass, Function.update_noteq hv]
      norm_num
      exact log_two_lt_two.ne'

/-! ### The polynomial basis -/

/-- C10: at every position `(x, y, z)` the basis function returns exactly the
ordered 20-element list
`[1, x, y, z, x², y², z², xy, xz, yz, x³, y³, z³, x²y, x²z, xy², y²z, xz²,
yz², xyz]`. -/
theorem basis_function_order (x y z : ℝ) :
    basis_function x y z =
      [1, x, y, z, x ^ 2, y ^ 2, z ^ 2, x * y, x * z, y * z,
       x ^ 3, y ^ 3, z ^ 3, x ^ 2 * y, x ^ 2 * z, x * y ^ 2, y ^ 2 * z,
       x * z ^ 2, y * z ^ 2, x * y * z] ∧
    (basis_function x y z).length = 20 := by
  refine ⟨?_, rfl⟩
  simp only [basis_function, List.cons.injEq, and_true]
  and_intros <;> first | trivial | ring

end Mtlognorm
